import Mathlib

/-!
Verification of the kulasisi-data entry-normalization pipeline.

Text is modelled as `List Char` (`Str`).  Raw records carry the already
rendered visible text of their markup fragments: HTML-to-DOM rendering
(BeautifulSoup `get_text`) is an external collaborator, outside the core.
All scanning functions are written with structural recursion (using a fuel
argument equal to the input length where the scan skips several characters
at once), so every definition evaluates on concrete inputs.
-/

/-- Text as a list of characters. -/
abbrev Str := List Char

/-- Whitespace test used by the trimming helpers (Python `str.strip()`). -/
def wsChar (c : Char) : Bool := c.isWhitespace

/-- Drop a maximal run of characters satisfying `p` from the left. -/
def ldrop (p : Char → Bool) (s : Str) : Str := s.dropWhile p

/-- Drop a maximal run of characters satisfying `p` from the right. -/
def rdrop (p : Char → Bool) (s : Str) : Str := (s.reverse.dropWhile p).reverse

/-- Strip characters satisfying `p` from both ends (Python `str.strip`). -/
def stripP (p : Char → Bool) (s : Str) : Str := rdrop p (ldrop p s)

/-- Python `str.strip()`: strip whitespace from both ends. -/
def stripWs (s : Str) : Str := stripP wsChar s

/-- Python `str.strip(chars)`: strip characters of `cs` from both ends. -/
def stripSet (cs : Str) (s : Str) : Str := stripP (fun c => cs.contains c) s

/-- Python `str.lstrip(chars)`: strip characters of `cs` from the left. -/
def lstripSet (cs : Str) (s : Str) : Str := ldrop (fun c => cs.contains c) s

/-- Python `str.lower` (ASCII range, which covers all inputs used here). -/
def toLowerStr (s : Str) : Str := s.map Char.toLower

/-- Python `str.split(sep)` for a one-character separator: keeps empty parts. -/
def splitOnChar (c : Char) : Str → List Str
  | [] => [[]]
  | a :: rest =>
    if a = c then [] :: splitOnChar c rest
    else
      match splitOnChar c rest with
      | [] => [[a]]
      | p :: ps => (a :: p) :: ps

/-- Truthiness filter of the Python dict comprehensions: a string field is
kept only when non-empty. -/
def keepS (s : Str) : Option Str := if s = [] then none else some s

/-- Truthiness filter for list-valued fields: kept only when non-empty. -/
def keepL (l : List Str) : Option (List Str) := if l = [] then none else some l

/-- Entity reference at the position right after a `&`: the decoded
character and the number of characters the reference body occupies.
Covers the core named entities (`amp` `lt` `gt` `quot` `apos`). -/
def entityAt (s : Str) : Option (Char × Nat) :=
  if "amp;".data.isPrefixOf s then some ('&', 4)
  else if "lt;".data.isPrefixOf s then some ('<', 3)
  else if "gt;".data.isPrefixOf s then some ('>', 3)
  else if "quot;".data.isPrefixOf s then some (Char.ofNat 34, 5)
  else if "apos;".data.isPrefixOf s then some (Char.ofNat 39, 5)
  else none

/-- Single left-to-right pass of HTML entity decoding
(fuel-driven scan; the wrapper supplies fuel `s.length`). -/
def unescapeAux : Nat → Str → Str
  | 0, s => s
  | _ + 1, [] => []
  | fuel + 1, c :: rest =>
    if c = '&' then
      match entityAt rest with
      | some (d, n) => d :: unescapeAux fuel (rest.drop n)
      | none => c :: unescapeAux fuel rest
    else c :: unescapeAux fuel rest

/-- HTML entity decoding, modelling Python `html.unescape` restricted to
the core named entities.  Like the stdlib function it performs one scan:
the text produced by a replacement is not rescanned. -/
def unescapeCore (s : Str) : Str := unescapeAux s.length s

/-- The spec's `unescapeAndTrim` text-cleanup utility: decode HTML/XML
character entities, then strip leading/trailing whitespace (the cleanup
applied to GCIDE definition text). -/
def unescapeAndTrim (s : Str) : Str := stripWs (unescapeCore s)

/-- Python `str.replace(pat, "")`: remove every occurrence of `pat`
(fuel-driven scan; the wrapper supplies fuel `s.length`). -/
def removeSubAux (pat : Str) : Nat → Str → Str
  | 0, s => s
  | _ + 1, [] => []
  | fuel + 1, c :: rest =>
    if pat ≠ [] ∧ pat.isPrefixOf (c :: rest) then
      removeSubAux pat fuel ((c :: rest).drop pat.length)
    else c :: removeSubAux pat fuel rest

/-- Remove every occurrence of `pat` from `s`. -/
def removeSub (pat s : Str) : Str := removeSubAux pat s.length s

/-! ### Scraped dictionary adapter (src/dictionaries/pinoy_dictionary/parser.py) -/

/-- Raw scraped record: `word` as scraped (possibly missing), the visible
text of the definition HTML (rendering is the external collaborator), and
the source link. -/
structure PRecord where
  word : Option Str
  definition : Str
  source : Str
deriving DecidableEq

/-- One sense produced by the scraped adapter; a field is `none` exactly
when the Python dict comprehension omits it (falsy value). -/
structure PDef where
  description : Option Str
  pos : Option Str
  inflections : Option (List Str)
  source_link : Option Str
deriving DecidableEq

/-- Normalized scraped entry. -/
structure PEntry where
  word : Str
  definitions : List PDef
deriving DecidableEq

/-- Python `str.isspace()`: non-empty and all whitespace. -/
def pyIsSpace (s : Str) : Bool := !s.isEmpty && s.all wsChar

/-- Scan for the closing parenthesis of `re` pattern `\(.+?\)` given the text
after the opening parenthesis: the first `)` at index ≥ 1 whose preceding
content contains no newline (`.` never matches a newline, `+?` needs at
least one character, so the character at index 0 is always content). -/
def findCloseGo (i : Nat) : Str → Option Nat
  | [] => none
  | c :: r => if c = ')' then some i else if c = Char.ofNat 10 then none else findCloseGo (i + 1) r

/-- Index of the matching close for `\(.+?\)`, counting from the character
after the `(`; `none` when the pattern cannot match at this `(`. -/
def findClose : Str → Option Nat
  | [] => none
  | c :: r => if c = Char.ofNat 10 then none else findCloseGo 1 r

/-- Python `re.sub(r"\(.+?\)", "", s)`: delete every non-greedy
parenthesized span, resuming the scan after each deleted span
(fuel-driven; the wrapper supplies fuel `s.length`). -/
def removeParensAux : Nat → Str → Str
  | 0, s => s
  | _ + 1, [] => []
  | fuel + 1, c :: rest =>
    if c = '(' then
      match findClose rest with
      | some j => removeParensAux fuel (rest.drop (j + 1))
      | none => c :: removeParensAux fuel rest
    else c :: removeParensAux fuel rest

/-- Delete every `\(.+?\)` span from `s`. -/
def removeParens (s : Str) : Str := removeParensAux s.length s

/-- Headword cleanup of the scraped parser: drop parenthesized asides, trim,
and keep only the first comma-separated variant. -/
def wordCleanup (w : Str) : Str :=
  let w1 := stripWs (removeParens w)
  if w1.contains ',' then stripWs (w1.takeWhile (fun c => !(c == ','))) else w1

/-- Python `re` metacharacters outside character classes: a headword
character in this set is not matched literally when the parser interpolates
the headword, unescaped, into the pattern `f"^{word}"`. -/
def regexMeta (c : Char) : Bool :=
  c = '.' || c = '^' || c = '$' || c = '*' || c = '+' || c = '?' ||
  c = '{' || c = '}' || c = '[' || c = ']' || c = '|' ||
  c = '(' || c = ')' || c = Char.ofNat 92

/-- One atom of a headword-derived pattern: `.` or a literal character. -/
inductive RAtom where
  | any : RAtom
  | lit : Char → RAtom
deriving DecidableEq

/-- A regex quantifier attached to one atom. -/
inductive RQuant where
  | one : RQuant
  | plus : RQuant
  | star : RQuant
  | opt : RQuant
deriving DecidableEq

/-- Interpretation of one headword character as a pattern atom: `.` is the
any-character atom, any other metacharacter is outside the modelled
fragment, the rest are literals. -/
def parseAtom (c : Char) : Option RAtom :=
  if c = '.' then some RAtom.any
  else if regexMeta c then none
  else some (RAtom.lit c)

/-- Compile the interpolated headword into a sequence of quantified atoms:
literal characters and `.`, each optionally followed by `+`, `*` or `?`.
Headwords outside this fragment yield `none`: for the invalid patterns
among them — e.g. an unbalanced `(` — the program raises `re.error`, which
`process_entry`'s `except` turns into a dropped record, and this model
conservatively treats the rest of the metacharacter forms (anchors,
alternation, groups, classes, escapes) the same way. -/
def parseWordPattern : Str → Option (List (RAtom × RQuant))
  | [] => some []
  | c :: rest =>
    match parseAtom c with
    | none => none
    | some a =>
      match rest with
      | [] => some [(a, RQuant.one)]
      | d :: r2 =>
        if d = '+' then (parseWordPattern r2).map fun ts => (a, RQuant.plus) :: ts
        else if d = '*' then (parseWordPattern r2).map fun ts => (a, RQuant.star) :: ts
        else if d = '?' then (parseWordPattern r2).map fun ts => (a, RQuant.opt) :: ts
        else (parseWordPattern (d :: r2)).map fun ts => (a, RQuant.one) :: ts

/-- Whether an atom matches one character (`.` matches all but newline). -/
def matchAtom (a : RAtom) (c : Char) : Bool :=
  match a with
  | RAtom.any => c != Char.ofNat 10
  | RAtom.lit ch => c == ch

/-- Anchored greedy backtracking match of a quantified-atom sequence
against a prefix of the text, returning the matched length.  Each step
shrinks the token list or the text, so fuel `ts.length + s.length + 1`
is always sufficient. -/
def rxMatchAux : Nat → List (RAtom × RQuant) → Str → Option Nat
  | 0, _, _ => none
  | _ + 1, [], _ => some 0
  | fuel + 1, (a, RQuant.one) :: ts, s =>
    match s with
    | c :: r => if matchAtom a c then (rxMatchAux fuel ts r).map (· + 1) else none
    | [] => none
  | fuel + 1, (a, RQuant.opt) :: ts, s =>
    match s with
    | c :: r =>
      if matchAtom a c then
        match rxMatchAux fuel ts r with
        | some n => some (n + 1)
        | none => rxMatchAux fuel ts s
      else rxMatchAux fuel ts s
    | [] => rxMatchAux fuel ts []
  | fuel + 1, (a, RQuant.plus) :: ts, s =>
    match s with
    | c :: r =>
      if matchAtom a c then (rxMatchAux fuel ((a, RQuant.star) :: ts) r).map (· + 1) else none
    | [] => none
  | fuel + 1, (a, RQuant.star) :: ts, s =>
    match s with
    | c :: r =>
      if matchAtom a c then
        match rxMatchAux fuel ((a, RQuant.star) :: ts) r with
        | some n => some (n + 1)
        | none => rxMatchAux fuel ts s
      else rxMatchAux fuel ts s
    | [] => rxMatchAux fuel ts []

/-- The length of the anchored match of `re.match(f"^{word}", t)` for a
headword compiled to `ts`; `none` when the pattern does not match at the
start of `t`. -/
def rxMatch (ts : List (RAtom × RQuant)) (s : Str) : Option Nat :=
  rxMatchAux (ts.length + s.length + 1) ts s

/-- Word-prefix strip stage of the scraped parser (line 81):
`re.sub(f"^{word}", "", full_definition).lstrip(" .,;:!?")`.  The cleaned
headword is interpolated into the pattern unescaped, so it is matched as a
regex, not as a literal: the anchored match span (if any) is removed, then
leading space/punctuation is stripped.  `none` signals a headword outside
the compiled fragment, where the record is dropped (the program's
`re.error` path). -/
def stripLeadingWord (w t : Str) : Option Str :=
  match parseWordPattern w with
  | none => none
  | some ts =>
    some (lstripSet " .,;:!?".data
      (match rxMatch ts t with
       | some n => t.drop n
       | none => t))

/-- Backtracking scan for the nested alternative of
`^\(([^\(\)]*(?:\(.+?\))?[^\(\)]*)\)`: `A` is the paren-free prefix already
matched, `N` the (reversed) content consumed so far by the non-greedy
`.+?` of the nested group.  At each `)` with non-empty content the scan
tries to finish the outer group (`[^()]*` then `)`); on failure the `)` is
absorbed into the nested content, exactly as the regex engine backtracks. -/
def nestedScan (A : Str) : Str → Str → Option Str
  | _, [] => none
  | N, c :: r =>
    if c = ')' then
      if N ≠ [] then
        let B := r.takeWhile (fun d => !(d == '(') && !(d == ')'))
        match r.drop B.length with
        | ')' :: _ => some (A ++ '(' :: N.reverse ++ ')' :: B)
        | _ => nestedScan A (c :: N) r
      else nestedScan A (c :: N) r
    else if c = Char.ofNat 10 then none
    else nestedScan A (c :: N) r

/-- Group 1 of `re.match(r"^\(([^\(\)]*(?:\(.+?\))?[^\(\)]*)\)", t)`:
a leading parenthesized group allowing one nested parenthesis pair. -/
def matchInflGroup : Str → Option Str
  | '(' :: rest =>
    let A := rest.takeWhile (fun d => !(d == '(') && !(d == ')'))
    match rest.drop A.length with
    | ')' :: _ => some A
    | '(' :: r2 => nestedScan A [] r2
    | _ => none
  | _ => none

/-- Inflection-extraction stage (scraped parser lines 85-95): on a leading
parenthesized group, normalize `.` to `,`, trim, split on `,` and trim each
token; the text consumed is `len("(" + inflections_str + ")")` characters —
the stripped group content plus the two parentheses, exactly as the Python
slice computes it — and the remainder is trimmed. -/
def extractInflections (t : Str) : List Str × Str :=
  match matchInflGroup t with
  | none => ([], t)
  | some g =>
    let gs := stripWs (g.map (fun c => if c = '.' then ',' else c))
    (((splitOnChar ',' gs).map stripWs), stripWs (t.drop (gs.length + 2)))

/-- One unit of the POS pattern `(?:\d\. )?[a-z]+\.,?;? ?`: optional
digit-dot-space prefix, one or more lowercase letters, a dot, then optional
comma, semicolon and space.  Returns the matched text and the rest. -/
def posUnit (t : Str) : Option (Str × Str) :=
  let core : Str → Option (Str × Str) := fun u =>
    let L := u.takeWhile (fun c => 'a' ≤ c && c ≤ 'z')
    if L = [] then none
    else
      match u.drop L.length with
      | '.' :: r =>
        let s1 := match r with | ',' :: rr => (([','] : Str), rr) | _ => ([], r)
        let s2 := match s1.2 with | ';' :: rr => (([';'] : Str), rr) | _ => ([], s1.2)
        let s3 := match s2.2 with | ' ' :: rr => (([' '] : Str), rr) | _ => ([], s2.2)
        some (L ++ '.' :: (s1.1 ++ s2.1 ++ s3.1), s3.2)
      | _ => none
  match t with
  | d :: '.' :: ' ' :: r =>
    if d.isDigit then
      match core r with
      | some (u, rest) => some (d :: '.' :: ' ' :: u, rest)
      | none => core t
    else core t
  | _ => core t

/-- Greedy repetition of `posUnit` (the `+` of the POS regex), fuel-driven. -/
def posUnitsAux : Nat → Str → Str × Str
  | 0, t => ([], t)
  | fuel + 1, t =>
    match posUnit t with
    | none => ([], t)
    | some (u, r) =>
      let p := posUnitsAux fuel r
      (u ++ p.1, p.2)

/-- Group 1 of `re.match(r"^((?:(?:\d\. )?[a-z]+\.,?;? ?)+)", t)`. -/
def posMatchGroup (t : Str) : Option Str :=
  let g := (posUnitsAux t.length t).1
  if g = [] then none else some g

/-- POS-extraction stage (scraped parser lines 99-102): the matched group is
trimmed; the text consumed is `len(pos)` characters of the trimmed group —
as the Python slice computes it — and the remainder is trimmed. -/
def extractPos (t : Str) : Option Str × Str :=
  match posMatchGroup t with
  | none => (none, t)
  | some g =>
    let p := stripWs g
    (some p, stripWs (t.drop p.length))

/-- A delimiter of `re.split(r"\d+(?:\.|\))\s*", t)` starting at the head of
`t`: one or more digits, a dot or close-paren, then greedy whitespace.
Returns the delimiter length. -/
def matchDelim (t : Str) : Option Nat :=
  let D := t.takeWhile Char.isDigit
  if D = [] then none
  else
    match t.drop D.length with
    | '.' :: r => some (D.length + 1 + (r.takeWhile wsChar).length)
    | ')' :: r => some (D.length + 1 + (r.takeWhile wsChar).length)
    | _ => none

/-- Left-to-right scan of `re.split`: split `t` at every non-overlapping
delimiter match, keeping empty pieces (fuel-driven). -/
def splitSensesAux : Nat → Str → Str → List Str
  | 0, acc, t => [acc.reverse ++ t]
  | fuel + 1, acc, t =>
    match t with
    | [] => [acc.reverse]
    | c :: rest =>
      match matchDelim t with
      | some n => acc.reverse :: splitSensesAux fuel [] (t.drop n)
      | none => splitSensesAux fuel (c :: acc) rest

/-- `re.split(r"\d+(?:\.|\))\s*", t)`: the numbered/bulleted sense split. -/
def splitSenses (t : Str) : List Str := splitSensesAux t.length [] t

/-- The definitions list of the scraped parser (lines 106-123): one dict per
non-empty sense candidate of the numbered split, with falsy fields omitted;
an empty remaining text yields no definitions. -/
def buildPDefs (t : Str) (pos : Option Str) (infl : List Str) (src : Str) : List PDef :=
  if t = [] then []
  else
    (splitSenses t).filterMap fun d =>
      if d = [] then none
      else some ⟨keepS (stripSet " ;".data d), pos.bind keepS, keepL infl, keepS src⟩

/-- Entry normalizer of the scraped dictionary adapter
(`process_entry`, src/dictionaries/pinoy_dictionary/parser.py lines 61-131):
guard on a missing or whitespace-only word, clean the headword, strip the
word prefix (dropping the record when the interpolated pattern is outside
the compiled fragment — the `re.error` → `except` → `return None` path),
extract inflections, extract POS, split senses, and keep one definition
dict per non-empty candidate, omitting falsy fields. -/
def processEntryP (e : PRecord) : Option PEntry :=
  match e.word with
  | none => none
  | some w0 =>
    if w0.isEmpty || pyIsSpace w0 then none
    else
      let w := wordCleanup w0
      match stripLeadingWord w e.definition with
      | none => none
      | some fd1 =>
        let infl := extractInflections fd1
        let posr := extractPos infl.2
        some ⟨w, buildPDefs posr.2 posr.1 infl.1 e.source⟩

/-! ### GCIDE XML adapter (src/dictionaries/gcide/parser.py) -/

/-- A GCIDE paragraph node, carrying the rendered text of each sub-node the
parser consults (`get_text(strip=True)` results, except `ety` which the
parser reads with a bare `get_text()`).  `qex` records whether a `qex`
sub-node exists (the example flag); `sources` lists the `source`
sub-nodes' texts. -/
structure GcideNode where
  ent : Option Str
  pos : Option Str
  defs : List Str
  ety : Option Str
  syn : Option Str
  ant : Option Str
  sources : List Str
  q : Option Str
  qex : Bool
deriving DecidableEq

/-- One sense produced by the GCIDE adapter; `none` fields are the ones the
dict comprehension omits as falsy. -/
structure GDef where
  description : Option Str
  pos : Option Str
  origin : Option Str
  synonyms : Option (List Str)
  antonyms : Option (List Str)
  examples : Option (List Str)
  source_title : Option Str
deriving DecidableEq

/-- Normalized GCIDE result: `word` is `none` when the paragraph has no
`ent` sub-node (a continuation record). -/
structure GEntry where
  word : Option Str
  definitions : List GDef
deriving DecidableEq

/-- Entry normalizer of the GCIDE adapter (`process_entry`,
src/dictionaries/gcide/parser.py lines 86-161).  The Python function
returns `None` only from its exception handler; none of the modelled
operations raise, so the normal path always yields an entry — with `word`
absent when there is no `ent` sub-node and one definition dict per `def`
sub-node. -/
def processEntryG (n : GcideNode) : Option GEntry :=
  let origin := n.ety.map fun t => unescapeCore (stripSet " []".data t)
  let synonyms :=
    match n.syn with
    | some t => (splitOnChar ',' (removeSub "Syn. --".data t)).map fun w => toLowerStr (stripWs w)
    | none => []
  let antonyms :=
    match n.ant with
    | some t => (splitOnChar ';' t).map fun w => toLowerStr (stripWs w)
    | none => []
  let source := match n.sources with | [] => [] | s :: _ => s
  let examples :=
    match n.q, n.qex with
    | some q, true => [unescapeCore q]
    | _, _ => []
  some ⟨n.ent,
    n.defs.map fun d =>
      ⟨keepS (unescapeCore d), (n.pos.bind keepS),
       origin.bind keepS,
       keepL synonyms, keepL antonyms, keepL examples, keepS source⟩⟩

/-- Headword truthiness test of the merger (`new_entry.get("word")`). -/
def wordPresentB (e : GEntry) : Bool :=
  match e.word with
  | some w => !w.isEmpty
  | none => false

/-- In-place `data[-1]["definitions"].extend(ds)`: append `ds` to the last
entry's definitions, leaving every other entry unchanged. -/
def extendLast (ds : List GDef) : List GEntry → List GEntry
  | [] => []
  | [e] => [⟨e.word, e.definitions ++ ds⟩]
  | e :: rest => e :: extendLast ds rest

/-- One transition of the Fragment Merger (`process_letter`,
src/dictionaries/gcide/parser.py lines 72-83): skip an absent result;
append an entry with a present headword; fold a headword-less entry's
definitions into the last entry when one exists; otherwise drop it. -/
def mergeStep (data : List GEntry) (r : Option GEntry) : List GEntry :=
  match r with
  | none => data
  | some e =>
    if wordPresentB e then data ++ [e]
    else if data.isEmpty then data
    else extendLast e.definitions data

/-- The Fragment Merger as a left fold over normalized results in source order. -/
def normalizeAndMerge (rs : List (Option GEntry)) : List GEntry :=
  rs.foldl mergeStep []

/-! ### Export sort (src/dictionaries/gcide/parser.py lines 173-174) -/

/-- Code-point lexicographic order on text (Python string comparison). -/
def lexLe : Str → Str → Bool
  | [], _ => true
  | _ :: _, [] => false
  | a :: as, b :: bs =>
    if a.toNat < b.toNat then true
    else if b.toNat < a.toNat then false
    else lexLe as bs

/-- Sort key of `parsed_data.sort(key=lambda entry: entry["word"].lower())`. -/
def entryKey (e : GEntry) : Str := toLowerStr (e.word.getD [])

/-- Case-insensitive headword order on entries. -/
def entryLe (a b : GEntry) : Prop := lexLe (entryKey a) (entryKey b) = true

instance : DecidableRel entryLe := fun _ _ => inferInstanceAs (Decidable (_ = true))

/-- The export layer's stable sort by lower-cased headword. -/
def sortEntries (l : List GEntry) : List GEntry := List.insertionSort entryLe l

/-! ### Frequency aggregator (src/freqlists/generate_freqlists.py lines 54-80) -/

/-- Lookup in a Python-dict-as-association-list. -/
def dictGet (d : List (Str × Int)) (k : Str) : Option Int :=
  match d with
  | [] => none
  | (k2, v) :: rest => if k2 = k then some v else dictGet rest k

/-- Value update of an existing key: replaces the stored value, never adds
or reorders keys (Python `d[k] = v` for a present key). -/
def dictSet (d : List (Str × Int)) (k : Str) (v : Int) : List (Str × Int) :=
  d.map fun p => if p.1 = k then (k, v) else p

/-- One reference row of `apply_existing_freqlist` (lines 70-78): lower-case
the row's word; when it is already a key of the language's table, add the
row's count to the stored value; otherwise leave the table unchanged. -/
def applyRow (t : List (Str × Int)) (row : Str × Int) : List (Str × Int) :=
  match dictGet t (toLowerStr row.1) with
  | some v => dictSet t (toLowerStr row.1) (v + row.2)
  | none => t

/-- The reference merge of `apply_existing_freqlist`: fold the parsed
reference rows, in order, into the local frequency table. -/
def applyReference (t : List (Str × Int)) (rows : List (Str × Int)) : List (Str × Int) :=
  rows.foldl applyRow t

/-- Total reference count contributed to key `k`: the sum of the counts of
the rows whose lower-cased word is `k`. -/
def refSum (rows : List (Str × Int)) (k : Str) : Int :=
  rows.foldr (fun r acc => if toLowerStr r.1 = k then r.2 + acc else acc) 0

/-! ### Helper lemmas -/

theorem ldrop_idem (p : Char → Bool) (s : Str) : ldrop p (ldrop p s) = ldrop p s := by
  induction s with
  | nil => rfl
  | cons a t ih =>
    by_cases hp : p a
    · simpa [ldrop, List.dropWhile_cons, hp] using ih
    · simp [ldrop, List.dropWhile_cons, hp]

theorem rdrop_idem (p : Char → Bool) (s : Str) : rdrop p (rdrop p s) = rdrop p s := by
  have h := ldrop_idem p s.reverse
  unfold ldrop at h
  unfold rdrop
  rw [List.reverse_reverse, h]

theorem rdrop_prefix (p : Char → Bool) (s : Str) : rdrop p s <+: s := by
  have h : s.reverse.dropWhile p <:+ s.reverse := List.dropWhile_suffix p
  have h2 := List.reverse_prefix.mpr h
  rw [List.reverse_reverse] at h2
  exact h2

theorem head?_ldrop (p : Char → Bool) (s : Str) (c : Char)
    (h : (ldrop p s).head? = some c) : p c = false := by
  induction s with
  | nil => simp [ldrop] at h
  | cons a t ih =>
    by_cases hp : p a
    · exact ih (by simpa [ldrop, List.dropWhile_cons, hp] using h)
    · simp [ldrop, List.dropWhile_cons, hp] at h
      subst h
      simpa using hp

theorem ldrop_eq_self_of_head (p : Char → Bool) (s : Str)
    (h : ∀ c, s.head? = some c → p c = false) : ldrop p s = s := by
  cases s with
  | nil => rfl
  | cons a t => simp [ldrop, List.dropWhile_cons, h a rfl]

/-- The two-sided strip is idempotent. -/
theorem stripP_idem (p : Char → Bool) (s : Str) : stripP p (stripP p s) = stripP p s := by
  show rdrop p (ldrop p (rdrop p (ldrop p s))) = rdrop p (ldrop p s)
  have hld : ldrop p (rdrop p (ldrop p s)) = rdrop p (ldrop p s) := by
    apply ldrop_eq_self_of_head
    intro c hc
    obtain ⟨r, hr⟩ := rdrop_prefix p (ldrop p s)
    apply head?_ldrop p s c
    rw [← hr]
    cases hb : rdrop p (ldrop p s) with
    | nil => rw [hb] at hc; simp at hc
    | cons x xs =>
      rw [hb] at hc
      simp at hc
      subst hc
      simp
  rw [hld, rdrop_idem]

theorem unescapeAux_noAmp (fuel : Nat) (s : Str) (h : '&' ∉ s) : unescapeAux fuel s = s := by
  induction fuel generalizing s with
  | zero => rfl
  | succ f ih =>
    cases s with
    | nil => rfl
    | cons c rest =>
      have hc : ¬ c = '&' := by
        intro hcc
        exact h (hcc ▸ List.mem_cons_self c rest)
      rw [unescapeAux, if_neg hc]
      rw [ih rest (fun hm => h (List.mem_cons_of_mem c hm))]

/-- Ampersand-free text is a fixed point of the entity decoder. -/
theorem unescapeCore_noAmp (s : Str) (h : '&' ∉ s) : unescapeCore s = s :=
  unescapeAux_noAmp s.length s h

theorem dictSet_cons (k1 : Str) (v1 : Int) (rest : List (Str × Int)) (k : Str) (x : Int) :
    dictSet ((k1, v1) :: rest) k x =
      (if k1 = k then (k, x) else (k1, v1)) :: dictSet rest k x := rfl

theorem dictGet_dictSet_self (t : List (Str × Int)) (k : Str) (x : Int)
    (h : (dictGet t k).isSome) : dictGet (dictSet t k x) k = some x := by
  induction t with
  | nil => simp [dictGet] at h
  | cons p rest ih =>
    obtain ⟨k1, v1⟩ := p
    rw [dictSet_cons]
    by_cases hk : k1 = k
    · rw [if_pos hk, dictGet, if_pos rfl]
    · rw [if_neg hk, dictGet, if_neg hk]
      rw [dictGet, if_neg hk] at h
      exact ih h

theorem dictGet_dictSet_ne (t : List (Str × Int)) (k k2 : Str) (x : Int)
    (h : k2 ≠ k) : dictGet (dictSet t k x) k2 = dictGet t k2 := by
  induction t with
  | nil => rfl
  | cons p rest ih =>
    obtain ⟨k1, v1⟩ := p
    rw [dictSet_cons]
    by_cases hk : k1 = k
    · rw [if_pos hk, dictGet, if_neg (fun hkk => h hkk.symm), dictGet, ih,
        if_neg (hk ▸ fun hkk => h hkk.symm)]
    · rw [if_neg hk, dictGet, dictGet, ih]

theorem dictSet_keys (t : List (Str × Int)) (k : Str) (x : Int) :
    (dictSet t k x).map Prod.fst = t.map Prod.fst := by
  induction t with
  | nil => rfl
  | cons p rest ih =>
    obtain ⟨k1, v1⟩ := p
    rw [dictSet_cons]
    by_cases hk : k1 = k
    · rw [if_pos hk, List.map_cons, List.map_cons, ih, hk]
    · rw [if_neg hk, List.map_cons, List.map_cons, ih]

theorem applyRow_keys (t : List (Str × Int)) (row : Str × Int) :
    (applyRow t row).map Prod.fst = t.map Prod.fst := by
  cases h : dictGet t (toLowerStr row.1) with
  | none => simp [applyRow, h]
  | some v =>
    simp only [applyRow, h]
    exact dictSet_keys t (toLowerStr row.1) (v + row.2)

theorem applyReference_keys (t : List (Str × Int)) (rows : List (Str × Int)) :
    (applyReference t rows).map Prod.fst = t.map Prod.fst := by
  induction rows generalizing t with
  | nil => rfl
  | cons r rest ih =>
    show (applyReference (applyRow t r) rest).map Prod.fst = t.map Prod.fst
    rw [ih (applyRow t r), applyRow_keys]

theorem applyReference_lookup (rows : List (Str × Int)) (t : List (Str × Int)) (k : Str) (v : Int)
    (h : dictGet t k = some v) :
    dictGet (applyReference t rows) k = some (v + refSum rows k) := by
  induction rows generalizing t v with
  | nil => simpa [applyReference, refSum] using h
  | cons r rest ih =>
    show dictGet (applyReference (applyRow t r) rest) k = _
    by_cases hk : toLowerStr r.1 = k
    · have ht : applyRow t r = dictSet t k (v + r.2) := by
        simp only [applyRow, hk, h]
      have h2 : dictGet (applyRow t r) k = some (v + r.2) := by
        rw [ht]
        exact dictGet_dictSet_self t k (v + r.2) (by simp [h])
      rw [ih (applyRow t r) (v + r.2) h2]
      simp only [refSum, List.foldr_cons, if_pos hk]
      rw [Int.add_assoc]
    · have h2 : dictGet (applyRow t r) k = some v := by
        cases hg : dictGet t (toLowerStr r.1) with
        | none => simpa [applyRow, hg] using h
        | some v2 =>
          simp only [applyRow, hg]
          exact (dictGet_dictSet_ne t (toLowerStr r.1) k (v2 + r.2)
            (fun hkk => hk hkk.symm)).trans h
      rw [ih (applyRow t r) v h2]
      simp only [refSum, List.foldr_cons, if_neg hk]

theorem lexLe_total (x y : Str) : lexLe x y = true ∨ lexLe y x = true := by
  induction x generalizing y with
  | nil => left; rfl
  | cons a as ih =>
    cases y with
    | nil => right; rfl
    | cons b bs =>
      by_cases h1 : a.toNat < b.toNat
      · left
        rw [lexLe, if_pos h1]
      · by_cases h2 : b.toNat < a.toNat
        · right
          rw [lexLe, if_pos h2]
        · rw [lexLe, if_neg h1, if_neg h2, lexLe, if_neg h2, if_neg h1]
          exact ih bs

theorem lexLe_trans (x y z : Str) (hxy : lexLe x y = true) (hyz : lexLe y z = true) :
    lexLe x z = true := by
  induction x generalizing y z with
  | nil => rfl
  | cons a as ih =>
    cases y with
    | nil => simp [lexLe] at hxy
    | cons b bs =>
      cases z with
      | nil => simp [lexLe] at hyz
      | cons c cs =>
        rw [lexLe] at hxy hyz ⊢
        split_ifs at hxy hyz ⊢ <;>
          first
          | rfl
          | omega
          | exact ih bs cs hxy hyz

instance : IsTotal GEntry entryLe :=
  ⟨fun a b => lexLe_total (entryKey a) (entryKey b)⟩

instance : IsTrans GEntry entryLe :=
  ⟨fun a b c => lexLe_trans (entryKey a) (entryKey b) (entryKey c)⟩

theorem extendLast_append (ds : List GDef) (pre : List GEntry) (e : GEntry) :
    extendLast ds (pre ++ [e]) = pre ++ [⟨e.word, e.definitions ++ ds⟩] := by
  induction pre with
  | nil => rfl
  | cons x rest ih =>
    cases rest with
    | nil => rfl
    | cons y t => simpa [extendLast] using ih

theorem parseAtom_literal (c : Char) (hc : regexMeta c = false) :
    parseAtom c = some (RAtom.lit c) := by
  have hdot : ¬ c = '.' := by
    intro h
    rw [h] at hc
    exact absurd hc (by decide)
  unfold parseAtom
  rw [if_neg hdot, if_neg (by simp [hc])]

theorem parseWordPattern_literal (w : Str) (hw : ∀ c ∈ w, regexMeta c = false) :
    parseWordPattern w = some (w.map fun c => (RAtom.lit c, RQuant.one)) := by
  induction w with
  | nil => rfl
  | cons c rest ih =>
    have hc : regexMeta c = false := hw c (List.mem_cons_self c rest)
    have hrest : ∀ d ∈ rest, regexMeta d = false :=
      fun d hd => hw d (List.mem_cons_of_mem c hd)
    rw [parseWordPattern, parseAtom_literal c hc]
    cases rest with
    | nil => rfl
    | cons d r2 =>
      have hd : regexMeta d = false := hrest d (List.mem_cons_self d r2)
      have h1 : ¬ d = '+' := by intro h; rw [h] at hd; exact absurd hd (by decide)
      have h2 : ¬ d = '*' := by intro h; rw [h] at hd; exact absurd hd (by decide)
      have h3 : ¬ d = '?' := by intro h; rw [h] at hd; exact absurd hd (by decide)
      simp only [if_neg h1, if_neg h2, if_neg h3, ih hrest, List.map_cons]
      rfl

theorem rxMatchAux_literal (w : Str) (t : Str) (fuel : Nat) (hf : w.length < fuel) :
    rxMatchAux fuel (w.map fun c => (RAtom.lit c, RQuant.one)) (w ++ t) = some w.length := by
  induction w generalizing fuel with
  | nil =>
    cases fuel with
    | zero => exact absurd hf (by simp)
    | succ f => rfl
  | cons c rest ih =>
    cases fuel with
    | zero => exact absurd hf (by simp)
    | succ f =>
      have hf2 : rest.length < f := by
        simp only [List.length_cons] at hf
        omega
      simp only [List.map_cons, List.cons_append, rxMatchAux, matchAtom, beq_self_eq_true,
        if_true, ih f hf2, List.length_cons]
      rfl

theorem extendLast_nil (data : List GEntry) : extendLast [] data = data := by
  induction data with
  | nil => rfl
  | cons e rest ih =>
    cases rest with
    | nil => simp [extendLast]
    | cons y t => simpa [extendLast] using ih

theorem keepS_eq_some (t s : Str) (h : keepS t = some s) : s = t ∧ t ≠ [] := by
  unfold keepS at h
  by_cases ht : t = []
  · rw [if_pos ht] at h; exact absurd h (by simp)
  · rw [if_neg ht] at h
    exact ⟨(Option.some_inj.mp h).symm, ht⟩

theorem dictGet_none_iff (d : List (Str × Int)) (k : Str) :
    dictGet d k = none ↔ k ∉ d.map Prod.fst := by
  induction d with
  | nil => simp [dictGet]
  | cons p rest ih =>
    obtain ⟨k1, v1⟩ := p
    by_cases hk : k1 = k
    · simp [dictGet, hk]
    · rw [dictGet, if_neg hk, List.map_cons, List.mem_cons, ih]
      constructor
      · intro h hk2
        rcases hk2 with h1 | h2
        · exact hk h1.symm
        · exact h h2
      · intro h
        exact fun h2 => h (Or.inr h2)

/-! ### Claims -/

/-- C1: for every language table, the reference merge of `buildFrequency`
is additive and reference-insertion-free: the key set of the table is
unchanged (reference-only words are not inserted, and a word absent
locally stays absent), a locally present key's count grows by the sum of
the counts of the reference rows whose lower-cased word equals it, and the
concrete table `{"cat": 2}` merged with rows `[("cat", 5), ("dog", 9)]`
yields `{"cat": 7}` with no key `"dog"`. -/
theorem freq_merge_additive_insertion_free :
    (∀ t rows, (applyReference t rows).map Prod.fst = t.map Prod.fst) ∧
    (∀ t rows k v, dictGet t k = some v →
      dictGet (applyReference t rows) k = some (v + refSum rows k)) ∧
    (∀ t rows k, dictGet t k = none → dictGet (applyReference t rows) k = none) ∧
    applyReference [("cat".data, 2)] [("cat".data, 5), ("dog".data, 9)] = [("cat".data, 7)] := by
  refine ⟨applyReference_keys, fun t rows k v h => applyReference_lookup rows t k v h, ?_, by decide⟩
  intro t rows k h
  rw [dictGet_none_iff, applyReference_keys]
  exact (dictGet_none_iff t k).mp h

/-- Witness for C1 at the concrete inputs of the claim. -/
theorem freq_merge_additive_insertion_free_witness :
    dictGet (applyReference [("cat".data, 2)] [("cat".data, 5), ("dog".data, 9)]) "cat".data =
      some (2 + refSum [("cat".data, 5), ("dog".data, 9)] "cat".data) :=
  freq_merge_additive_insertion_free.2.1
    [("cat".data, 2)] [("cat".data, 5), ("dog".data, 9)] "cat".data 2 (by decide)

/-- C2: the Fragment Merger is an order-sensitive left fold: a normalized
result with a present headword is appended as a new entry; a result whose
headword is absent while the output is still empty is dropped; hence the
two-record stream continuation-then-headword leaves the continuation
unattached instead of merging it. -/
theorem merger_order_sensitive :
    (∀ data e, wordPresentB e = true → mergeStep data (some e) = data ++ [e]) ∧
    (∀ e, wordPresentB e = false → mergeStep [] (some e) = []) ∧
    (∀ h c, wordPresentB h = true → wordPresentB c = false →
      normalizeAndMerge [some c, some h] = [h]) := by
  refine ⟨?_, ?_, ?_⟩
  · intro data e he
    simp [mergeStep, he]
  · intro e he
    simp [mergeStep, he]
  · intro h c hh hc
    show mergeStep (mergeStep (mergeStep [] none) (some c)) (some h) = [h]
    rw [show mergeStep [] none = [] from rfl,
      show mergeStep [] (some c) = [] from by simp [mergeStep, hc]]
    simp [mergeStep, hh]

/-- Witness for C2: a concrete continuation preceding its headword is dropped. -/
theorem merger_order_sensitive_witness :
    normalizeAndMerge
        [some ⟨none, [⟨some "d".data, none, none, none, none, none, none⟩]⟩,
         some ⟨some "head".data, []⟩] =
      [⟨some "head".data, []⟩] :=
  merger_order_sensitive.2.2 ⟨some "head".data, []⟩
    ⟨none, [⟨some "d".data, none, none, none, none, none, none⟩]⟩ (by decide) (by decide)

/-- C4: folding a continuation (absent headword, non-empty definitions)
into a non-empty output extends only the last entry, appending the new
definitions after its existing ones in order, and leaves every earlier
entry unchanged. -/
theorem merger_extend_frame (pre : List GEntry) (en c : GEntry)
    (hc : wordPresentB c = false) (hd : c.definitions ≠ []) :
    mergeStep (pre ++ [en]) (some c) =
      pre ++ [⟨en.word, en.definitions ++ c.definitions⟩] := by
  have hne : (pre ++ [en]).isEmpty = false := by simp
  simp only [mergeStep, hc, Bool.false_eq_true, if_false, hne]
  exact extendLast_append c.definitions pre en

/-- Witness for C4 at a concrete two-entry output and one-definition continuation. -/
theorem merger_extend_frame_witness :
    mergeStep
        [⟨some "a".data, []⟩, ⟨some "b".data, [⟨some "x".data, none, none, none, none, none, none⟩]⟩]
        (some ⟨none, [⟨some "y".data, none, none, none, none, none, none⟩]⟩) =
      [⟨some "a".data, []⟩,
       ⟨some "b".data, [⟨some "x".data, none, none, none, none, none, none⟩,
                        ⟨some "y".data, none, none, none, none, none, none⟩]⟩] :=
  merger_extend_frame [⟨some "a".data, []⟩]
    ⟨some "b".data, [⟨some "x".data, none, none, none, none, none, none⟩]⟩
    ⟨none, [⟨some "y".data, none, none, none, none, none, none⟩]⟩ (by decide) (by decide)

/-- C3 counterexample: a GCIDE paragraph node with no headword sub-node and
no definition sub-nodes does NOT make `normalize` return absent — the
GCIDE normalizer returns an entry with absent headword and no definitions. -/
theorem normalize_absent_gcide_counterexample :
    processEntryG ⟨none, none, [], none, none, none, [], none, false⟩ = some ⟨none, []⟩ ∧
    processEntryG ⟨none, none, [], none, none, none, [], none, false⟩ ≠ none := by
  constructor
  · decide
  · decide

/-- C3 amended: for the scraped adapter, a record with a missing,
empty or whitespace-only word normalizes to absent; for the GCIDE adapter,
a paragraph with no headword sub-node and no definition sub-nodes
normalizes to an entry with absent headword and empty definitions, which
the Fragment Merger then leaves the output unchanged by. -/
theorem normalize_absent_amended :
    (∀ e : PRecord, e.word = none → processEntryP e = none) ∧
    (∀ e : PRecord, ∀ w, e.word = some w → (w.isEmpty || pyIsSpace w) = true →
      processEntryP e = none) ∧
    (∀ n : GcideNode, n.ent = none → n.defs = [] →
      processEntryG n = some ⟨none, []⟩ ∧
      ∀ data, mergeStep data (processEntryG n) = data) := by
  refine ⟨?_, ?_, ?_⟩
  · intro e he
    simp [processEntryP, he]
  · intro e w he hw
    simp [processEntryP, he, hw]
  · intro n hent hdefs
    have hg : processEntryG n = some ⟨none, []⟩ := by
      simp [processEntryG, hent, hdefs]
    refine ⟨hg, fun data => ?_⟩
    rw [hg]
    cases data with
    | nil => simp [mergeStep, wordPresentB]
    | cons x rest =>
      simp [mergeStep, wordPresentB, extendLast_nil]

/-- Witness for C3's amended statement at concrete records. -/
theorem normalize_absent_amended_witness :
    processEntryP ⟨none, "x".data, []⟩ = none ∧
    processEntryP ⟨some "  ".data, "x".data, []⟩ = none ∧
    processEntryG ⟨none, none, [], none, none, none, [], none, false⟩ = some ⟨none, []⟩ :=
  ⟨normalize_absent_amended.1 ⟨none, "x".data, []⟩ rfl,
   normalize_absent_amended.2.1 ⟨some "  ".data, "x".data, []⟩ "  ".data rfl (by decide),
   (normalize_absent_amended.2.2 ⟨none, none, [], none, none, none, [], none, false⟩ rfl rfl).1⟩

/-- C5: on the scraped definition text
`"(tense, form) v. 1. to run 2. to flee"` the pipeline runs word-prefix
strip, then inflections, then POS, then sense split, in that order, each
consuming a leading span: it yields inflections `["tense", "form"]`, POS
`"v."` and definition descriptions `["to run", "to flee"]`. -/
theorem scraped_pipeline_example :
    stripLeadingWord "w".data "(tense, form) v. 1. to run 2. to flee".data =
      some "(tense, form) v. 1. to run 2. to flee".data ∧
    extractInflections "(tense, form) v. 1. to run 2. to flee".data =
      (["tense".data, "form".data], "v. 1. to run 2. to flee".data) ∧
    extractPos "v. 1. to run 2. to flee".data =
      (some "v.".data, "1. to run 2. to flee".data) ∧
    splitSenses "1. to run 2. to flee".data = [[], "to run ".data, "to flee".data] ∧
    processEntryP ⟨some "w".data, "(tense, form) v. 1. to run 2. to flee".data, []⟩ =
      some ⟨"w".data,
        [⟨some "to run".data, some "v.".data, some ["tense".data, "form".data], none⟩,
         ⟨some "to flee".data, some "v.".data, some ["tense".data, "form".data], none⟩]⟩ := by
  refine ⟨by decide, by decide, by decide, by decide, by decide⟩

/-- C6 counterexample: the sense candidate `"; "` of
`"1. ; 2. foo"` is non-empty before trimming but empty after trimming, and
the scraped normalizer keeps it as a Definition with the description field
omitted instead of dropping it from the definitions sequence. -/
theorem empty_description_kept_counterexample :
    processEntryP ⟨some "w".data, "1. ; 2. foo".data, []⟩ =
      some ⟨"w".data, [⟨none, none, none, none⟩, ⟨some "foo".data, none, none, none⟩]⟩ := by
  decide

/-- C6 amended: a candidate sense that is empty before trimming is dropped;
one that is empty only after trimming is kept with the description field
omitted; consequently every emitted Definition that carries a description
carries a non-empty one (already `" ;"`-trimmed for the scraped adapter). -/
theorem description_present_nonempty :
    (∀ e en, processEntryP e = some en → ∀ d ∈ en.definitions, ∀ s, d.description = some s →
      s ≠ [] ∧ stripSet " ;".data s = s) ∧
    (∀ n en, processEntryG n = some en → ∀ d ∈ en.definitions, ∀ s, d.description = some s →
      s ≠ []) := by
  constructor
  · intro e en he d hd s hs
    cases hw : e.word with
    | none => simp [processEntryP, hw] at he
    | some w0 =>
      by_cases hg : (w0.isEmpty || pyIsSpace w0) = true
      · simp [processEntryP, hw, hg] at he
      · simp only [processEntryP, hw, hg, Bool.false_eq_true, if_false] at he
        cases hsl : stripLeadingWord (wordCleanup w0) e.definition with
        | none => rw [hsl] at he; exact absurd he (by simp)
        | some fd1 =>
        rw [hsl] at he
        obtain rfl := Option.some_inj.mp he.symm
        simp only at hd
        unfold buildPDefs at hd
        by_cases ht : (extractPos (extractInflections fd1).2).2 = []
        · rw [if_pos ht] at hd
          simp at hd
        · rw [if_neg ht] at hd
          obtain ⟨cand, hcand, hf⟩ := List.mem_filterMap.mp hd
          by_cases hc : cand = []
          · rw [if_pos hc] at hf
            exact absurd hf (by simp)
          · rw [if_neg hc] at hf
            obtain rfl := Option.some_inj.mp hf
            simp only at hs
            obtain ⟨rfl, hne⟩ := keepS_eq_some _ s hs
            exact ⟨hne, stripP_idem _ cand⟩
  · intro n en he d hd s hs
    simp only [processEntryG, Option.some_inj] at he
    subst he
    simp only at hd
    obtain ⟨x, hx, rfl⟩ := List.mem_map.mp hd
    simp only at hs
    obtain ⟨rfl, hne⟩ := keepS_eq_some _ s hs
    exact hne

/-- Witness for C6's amended statement at a concrete scraped record. -/
theorem description_present_nonempty_witness :
    "foo".data ≠ [] ∧ stripSet " ;".data "foo".data = "foo".data :=
  description_present_nonempty.1 ⟨some "w".data, "foo".data, []⟩
    ⟨"w".data, [⟨some "foo".data, none, none, none⟩]⟩ (by decide)
    ⟨some "foo".data, none, none, none⟩ (by decide) "foo".data rfl

/-- C7 counterexample: the word-prefix stripper does NOT remove a literal
leading occurrence of every cleaned headword — the headword is
interpolated into the pattern unescaped, so `"a+b"` is matched as the
regex `^a+b` (which `"a+b x"` does not satisfy even though it begins with
the headword literally): nothing is stripped and the emitted description
still starts with `"a+b"`. -/
theorem leading_word_strip_counterexample :
    "a+b x".data = "a+b".data ++ " x".data ∧
    stripLeadingWord "a+b".data "a+b x".data = some "a+b x".data ∧
    processEntryP ⟨some "a+b".data, "a+b x".data, []⟩ =
      some ⟨"a+b".data, [⟨some "a+b x".data, none, none, none⟩]⟩ := by
  refine ⟨by decide, by decide, by decide⟩

/-- C7 amended: for a cleaned headword free of regex metacharacters (which
includes hyphenated or spaced headwords), a definition text beginning with
the headword has exactly that leading occurrence removed — followed by the
parser's leading space/punctuation strip — before any other extraction
runs, as on headword `"abala"` and text `"abala busy; occupied"` yielding
description `"busy; occupied"`; a metacharacter headword is matched as a
regex instead, and one forming an invalid pattern (such as the unbalanced
parenthesis of `"a(b"`) aborts the record. -/
theorem leading_word_strip_amended :
    (∀ w t : Str, (∀ c ∈ w, regexMeta c = false) →
      stripLeadingWord w (w ++ t) = some (lstripSet " .,;:!?".data t)) ∧
    processEntryP ⟨some "abala".data, "abala busy; occupied".data, []⟩ =
      some ⟨"abala".data, [⟨some "busy; occupied".data, none, none, none⟩]⟩ ∧
    parseWordPattern "a(b".data = none ∧
    processEntryP ⟨some "a(b".data, "a(b x".data, []⟩ = none := by
  refine ⟨?_, by decide, by decide, by decide⟩
  intro w t hw
  unfold stripLeadingWord
  rw [parseWordPattern_literal w hw]
  show some (lstripSet " .,;:!?".data
    (match rxMatch (w.map fun c => (RAtom.lit c, RQuant.one)) (w ++ t) with
     | some n => (w ++ t).drop n
     | none => w ++ t)) = _
  rw [show rxMatch (w.map fun c => (RAtom.lit c, RQuant.one)) (w ++ t) = some w.length from
    rxMatchAux_literal w t _ (by simp [rxMatch, List.length_map, List.length_append]; omega)]
  show some (lstripSet " .,;:!?".data ((w ++ t).drop w.length)) = _
  rw [List.drop_left]

/-- Witness for C7's amended general clause at a hyphenated headword. -/
theorem leading_word_strip_amended_witness :
    stripLeadingWord "ab-c".data ("ab-c".data ++ " x".data) =
      some (lstripSet " .,;:!?".data " x".data) :=
  leading_word_strip_amended.1 "ab-c".data " x".data (by decide)

/-- C8 counterexample: `unescapeAndTrim` is not idempotent — entity decoding
is a single pass, so the doubly-escaped `"&amp;amp;"` cleans to `"&amp;"`,
which a second cleanup turns into `"&"`. -/
theorem unescape_trim_not_idempotent :
    unescapeAndTrim (unescapeAndTrim "&amp;amp;".data) ≠ unescapeAndTrim "&amp;amp;".data := by
  decide

/-- C8 amended: `unescapeAndTrim` is idempotent on every string whose
cleaned-up result contains no ampersand, i.e. no residual entity start
(a doubly-escaped entity such as `"&amp;amp;"` breaks idempotence). -/
theorem unescape_trim_idempotent_amended (s : Str) (h : '&' ∉ unescapeAndTrim s) :
    unescapeAndTrim (unescapeAndTrim s) = unescapeAndTrim s := by
  unfold unescapeAndTrim at h ⊢
  rw [unescapeCore_noAmp (stripWs (unescapeCore s)) h]
  exact stripP_idem wsChar (unescapeCore s)

/-- Witness for C8's amended statement on a fully-decoding input. -/
theorem unescape_trim_idempotent_amended_witness :
    unescapeAndTrim (unescapeAndTrim " &lt;cat&gt; ".data) = unescapeAndTrim " &lt;cat&gt; ".data :=
  unescape_trim_idempotent_amended " &lt;cat&gt; ".data (by decide)

/-- C9: the inflection extractor does NOT always consume exactly the matched
span: the matched span of `"( tense, form ) v. to run"` is
`"( tense, form )"` (15 characters), but the parser slices off
`len("(" + inflections_str + ")")` = 13 characters — `inflections_str`
having been whitespace-stripped — so the remaining text `") v. to run"`
still contains the closing parenthesis, instead of the claimed
`"v. to run"`. -/
theorem inflection_span_bug :
    "( tense, form ) v. to run".data = "( tense, form )".data ++ " v. to run".data ∧
    extractInflections "( tense, form ) v. to run".data =
      (["tense".data, "form".data], ") v. to run".data) := by
  constructor
  · decide
  · decide

/-- C10: the export layer sorts the final collection by headword,
case-insensitively, ascending, before serialization: the sorted collection
is a permutation of the input and is ordered under the case-insensitive
headword order, and the concrete headwords `["Zebra", "apple", "Bee"]`
serialize as `["apple", "Bee", "Zebra"]`. -/
theorem export_sort_spec :
    (∀ l : List GEntry, (∀ e ∈ l, e.word.isSome) →
      List.Perm (sortEntries l) l ∧ (sortEntries l).Sorted entryLe) ∧
    sortEntries [⟨some "Zebra".data, []⟩, ⟨some "apple".data, []⟩, ⟨some "Bee".data, []⟩] =
      [⟨some "apple".data, []⟩, ⟨some "Bee".data, []⟩, ⟨some "Zebra".data, []⟩] := by
  constructor
  · intro l _
    exact ⟨List.perm_insertionSort entryLe l, List.sorted_insertionSort entryLe l⟩
  · decide

/-- Witness for C10's general clause at a concrete two-entry collection. -/
theorem export_sort_spec_witness :
    List.Perm (sortEntries [⟨some "b".data, []⟩, ⟨some "A".data, []⟩])
        [⟨some "b".data, []⟩, ⟨some "A".data, []⟩] ∧
    (sortEntries [⟨some "b".data, []⟩, ⟨some "A".data, []⟩]).Sorted entryLe :=
  export_sort_spec.1 [⟨some "b".data, []⟩, ⟨some "A".data, []⟩] (by decide)
